import Mathlib

/-!
# Verification of the Easy English Buddy response parser and speech delivery

Shallow embedding of the core logic of `src/main.py`:

* `parse_gigachat_response` — splits a completion reply into
  (english phrase, explanation), mirroring lines 237–293 of the source.
* `process_message` — the per-message orchestration (lines 296–393):
  empty-input rejection, empty-phrase repair, Cyrillic repair, text reply
  composition and the bounded TTS retry loop, rendered as a pure function
  producing the trace of user-visible effects.

Strings are modelled as `List Char`.  Python string operations (`strip`,
`split`, `' '.join(s.split())`, substring containment) are given explicit
executable definitions below.  Python's Unicode `str.isspace`/`str.isalpha`
are modelled over the character ranges this bot actually handles (ASCII
whitespace; ASCII, Latin-1/Extended and Cyrillic letters), as documented on
each definition.
-/

set_option autoImplicit false

namespace EasyEnglishBuddy

/-- Python whitespace (`str.strip()` / `str.split()`), modelled by the six
ASCII whitespace characters; rarer Unicode whitespace is outside the
embedding's domain. -/
def pyIsSpace (c : Char) : Bool :=
  c = ' ' || c = '\t' || c = '\n' || c = '\r' || c = '\x0b' || c = '\x0c'

/-- The source's native-alphabet test: `'Ѐ' <= char <= 'ӿ'`
(the Cyrillic Unicode block), from lines 266 and 326 of `src/main.py`. -/
def isCyrChar (c : Char) : Bool :=
  'Ѐ' ≤ c && c ≤ 'ӿ'

/-- `any(... for char in line)` over `isCyrChar`: the `has_cyrillic` test. -/
def hasCyr (s : List Char) : Bool :=
  s.any isCyrChar

/-- Python `c.isalpha() and ord(c) < 128` (line 268): exactly the ASCII
letters, which is Lean's `Char.isAlpha`. -/
def isAsciiLetter (c : Char) : Bool :=
  c.isAlpha

/-- Python's Unicode `str.isalpha` (line 334), modelled over the letter
ranges this bot encounters: ASCII letters, Latin-1 Supplement and Latin
Extended letters (U+00C0–U+024F minus the two arithmetic signs), and the
Cyrillic block.  Letters of other scripts are outside the embedding's
domain. -/
def pyIsAlpha (c : Char) : Bool :=
  c.isAlpha ||
  (('À' ≤ c && c ≤ 'ɏ') && !(c = '×') && !(c = '÷')) ||
  isCyrChar c

/-- The two characters stripped by `english_text.strip('[]')` (line 283). -/
def isBracketChar (c : Char) : Bool :=
  c = '[' || c = ']'

/-- Python `line.startswith('[')`. -/
def startsWithLB (s : List Char) : Bool :=
  match s with
  | [] => false
  | c :: _ => c = '['

/-- Left strip: drop characters satisfying `p` from the front. -/
def lstrip (p : Char → Bool) (s : List Char) : List Char :=
  s.dropWhile p

/-- Right strip: drop characters satisfying `p` from the back. -/
def rstrip (p : Char → Bool) (s : List Char) : List Char :=
  (s.reverse.dropWhile p).reverse

/-- Strip characters satisfying `p` from both ends. -/
def stripBy (p : Char → Bool) (s : List Char) : List Char :=
  rstrip p (lstrip p s)

/-- Python `s.strip()` (no argument): strip whitespace from both ends. -/
def pyStrip (s : List Char) : List Char :=
  stripBy pyIsSpace s

/-- Python `s.strip('[]')` (line 283). -/
def stripBrackets (s : List Char) : List Char :=
  stripBy isBracketChar s

/-- The separator token: the literal three-character sequence `---`. -/
def sepTok : List Char := ['-', '-', '-']

/-- Split on the first occurrence of `sep` (Python `s.split(sep, 1)` when
the separator is present); `none` when `sep` does not occur in `s`. -/
def splitFirst (sep : List Char) : List Char → Option (List Char × List Char)
  | [] => none
  | c :: rest =>
    if sep.isPrefixOf (c :: rest) then some ([], (c :: rest).drop sep.length)
    else
      match splitFirst sep rest with
      | some (a, b) => some (c :: a, b)
      | none => none

/-- Python `'---' in s`. -/
def hasSep (s : List Char) : Bool :=
  (splitFirst sepTok s).isSome

/-- Number of (possibly overlapping) occurrence positions of `sep` in `s`;
"`s` contains `---` exactly once" is `occCount sepTok s = 1`. -/
def occCount (sep : List Char) : List Char → Nat
  | [] => 0
  | c :: rest => (if sep.isPrefixOf (c :: rest) then 1 else 0) + occCount sep rest

/-- `sep` occurs nowhere in `s` (as a prop over suffixes). -/
def NoOcc (sep s : List Char) : Prop :=
  ∀ t, t <:+ s → sep.isPrefixOf t = false

/-- Python `s.split('\n')` (always returns at least one piece). -/
def splitOnNl : List Char → List (List Char)
  | [] => [[]]
  | c :: rest =>
    if c = '\n' then [] :: splitOnNl rest
    else
      match splitOnNl rest with
      | [] => [[c]]
      | l :: ls => (c :: l) :: ls

/-- Line 259: `[line.strip() for line in response.split('\n') if line.strip()]`. -/
def cleanLines (s : List Char) : List (List Char) :=
  ((splitOnNl s).map pyStrip).filter (fun l => !l.isEmpty)

/-- Python `sep.join(pieces)`. -/
def joinSep (sep : List Char) : List (List Char) → List Char
  | [] => []
  | [w] => w
  | w :: w2 :: ws => w ++ sep ++ joinSep sep (w2 :: ws)

/-- Accumulator version of Python `s.split()` (split on whitespace runs,
dropping empty pieces).  `acc` holds the current word reversed. -/
def wordsAux : List Char → List Char → List (List Char)
  | [], acc => if acc.isEmpty then [] else [acc.reverse]
  | c :: rest, acc =>
    if pyIsSpace c then
      if acc.isEmpty then wordsAux rest [] else acc.reverse :: wordsAux rest []
    else wordsAux rest (c :: acc)

/-- Python `s.split()` with no argument. -/
def pySplitWs (s : List Char) : List (List Char) :=
  wordsAux s []

/-- Line 286: `' '.join(english_text.split())` — collapse whitespace runs. -/
def collapseWs (s : List Char) : List Char :=
  joinSep [' '] (pySplitWs s)

/-- The fallback scan's per-line test (lines 266–270): has an ASCII letter,
has no Cyrillic character, and does not start with `[`. -/
def phrasePred (l : List Char) : Bool :=
  l.any isAsciiLetter && !(hasCyr l) && !(startsWithLB l)

/-- The fallback scan (lines 264–275): first line satisfying `phrasePred`,
together with the lines after it. -/
def findPhraseLine : List (List Char) → Option (List Char × List (List Char))
  | [] => none
  | l :: ls => if phrasePred l then some (l, ls) else findPhraseLine ls

/-- Lines 249–280 of `src/main.py`: the raw split of the (already
stripped) response into `(english_text, explanation)`, before the phrase
post-processing.

* If `---` occurs, split on its first occurrence and trim both parts
  (the `len(parts) == 2` branch; with `maxsplit=1` the split always
  yields two parts when the separator is present).
* Otherwise scan the non-empty trimmed lines for the first line with an
  ASCII letter, no Cyrillic and no leading `[`; join the following lines
  with newlines (trimmed) as the explanation.  If no line qualifies,
  default to the first line (or the stripped response itself when there
  are no lines). -/
def splitRaw (response : List Char) : List Char × List Char :=
  match splitFirst sepTok response with
  | some (a, b) => (pyStrip a, pyStrip b)
  | none =>
    let lines := cleanLines response
    match findPhraseLine lines with
    | some (l, rest) => (l, pyStrip (joinSep ['\n'] rest))
    | none =>
      match lines with
      | [] => (response, [])
      | l0 :: rest => (l0, pyStrip (joinSep ['\n'] rest))

/-- `parse_gigachat_response` (lines 237–293 of `src/main.py`): strip the
response, perform the raw split (`splitRaw`), then post-process — phrase:
`strip('[]')`, `strip()`, collapse whitespace; explanation: `strip()`. -/
def parse_gigachat_response (r : List Char) : List Char × List Char :=
  let pe := splitRaw (pyStrip r)
  (collapseWs (pyStrip (stripBrackets pe.1)), pyStrip pe.2)

/-! ## The orchestrator (`process_message`, lines 296–393)

Effects on the user channel are modelled as an explicit event trace; the
two remote collaborators are injected: the completion reply is a value
(its network call is out of this core, per the spec), and the speech
synthesiser is a function from the attempt index to either audio bytes or
a transport error.  The result of sending the final failure notice is a
further injected `Except`, whose failure the code swallows
(`try/except: pass`, lines 382–385). -/

/-- User-visible effects of one message, in order. -/
inductive Ev where
  /-- `send_chat_action(..., "typing")` (line 306). -/
  | typing
  /-- `send_chat_action(..., "record_voice")` (line 355). -/
  | recording
  /-- the call to the completion collaborator (line 310). -/
  | completionCall (prompt : List Char)
  /-- the call to the speech synthesiser (line 358). -/
  | ttsCall (text : List Char)
  /-- `message.answer(t)`. -/
  | sendText (t : List Char)
  /-- `message.answer_voice(...)` with the audio payload (line 365). -/
  | sendVoice (audio : List Nat)
  /-- `asyncio.sleep(1)`: the backoff wait (line 375). -/
  | sleep
deriving DecidableEq

/-- Line 301: the rejection message for empty input. -/
def rejectMsg : List Char :=
  "Пожалуйста, отправьте текстовое сообщение.".toList

/-- Line 323: the placeholder phrase. -/
def translationNA : List Char :=
  "Translation not available".toList

/-- Lines 379–381: the synthesis-failure notice. -/
def failNote : List Char :=
  "\n\n⚠️ _Не удалось сгенерировать озвучку для фразы._".toList

/-- Empty-phrase repair (lines 318–323): when the parsed phrase is empty,
take the text before the separator in the raw reply (or the whole raw
reply), stripped; if still empty, substitute the placeholder. -/
def emptyRepair (raw e : List Char) : List Char :=
  if e.isEmpty || (pyStrip e).isEmpty then
    let e' :=
      match splitFirst sepTok raw with
      | some (a, _) => pyStrip a
      | none => pyStrip raw
    if e'.isEmpty then translationNA else e'
  else e

/-- The Cyrillic-repair per-line test (lines 332–335), on the stripped
line: non-empty, no Cyrillic, some alphabetic character, does not contain
`---` and does not start with `[`. -/
def repairPred (l : List Char) : Bool :=
  !l.isEmpty && !(hasCyr l) && l.any pyIsAlpha && !(hasSep l) && !(startsWithLB l)

/-- Lines 330–337: scan the raw reply's lines (each stripped) for the
first line passing `repairPred`. -/
def repairScan : List (List Char) → Option (List Char)
  | [] => none
  | l :: ls =>
    if repairPred (pyStrip l) then some (pyStrip l) else repairScan ls

/-- Cyrillic repair (lines 325–337): when the phrase contains Cyrillic,
replace it by the first qualifying raw line if one exists, else leave it
unchanged. -/
def cyrRepair (raw e : List Char) : List Char :=
  if hasCyr e then
    match repairScan (splitOnNl raw) with
    | some l => l
    | none => e
  else e

/-- Lines 339–343: the two-part text reply — phrase, blank line, `---` on
its own line, blank line, explanation; or the phrase alone when the
explanation is empty. -/
def composeReply (e x : List Char) : List Char :=
  if !x.isEmpty then e ++ ['\n', '\n'] ++ sepTok ++ ['\n', '\n'] ++ x else e

/-- The TTS retry loop (lines 350–385).  `attempt` is the 0-based index of
the current attempt, `remaining` the number of attempts left (the loop is
entered with `remaining = max_retries`).  Per attempt: signal `recording`,
call the synthesiser; a raised error or zero-length audio is a failure.
On failure: if this is not the last attempt, back off (`sleep`) and retry;
on the last attempt, issue the failure notice — the notice send happens in
both arms of the `noticeRes` match because a failure of that send is
swallowed (`except: pass`) and does not alter behaviour.  Returns the
event trace and the `audio_sent` flag. -/
def ttsLoop (phrase : List Char) (tts : Nat → Except Unit (List Nat))
    (noticeRes : Except Unit Unit) : Nat → Nat → List Ev × Bool
  | _, 0 => ([], false)
  | attempt, remaining + 1 =>
    let attemptEvs := [Ev.recording, Ev.ttsCall phrase]
    let failCont : List Ev × Bool :=
      if remaining = 0 then
        (attemptEvs ++
          (match noticeRes with
           | .ok _ => [Ev.sendText failNote]
           | .error _ => [Ev.sendText failNote]), false)
      else
        let next := ttsLoop phrase tts noticeRes (attempt + 1) remaining
        (attemptEvs ++ Ev.sleep :: next.1, next.2)
    match tts attempt with
    | .error _ => failCont
    | .ok audio => if audio.isEmpty then failCont
                   else (attemptEvs ++ [Ev.sendVoice audio], true)

/-- The phrase after both repair passes (lines 314–337): parse, then the
empty-phrase repair, then the Cyrillic repair. -/
def repairedPhrase (completion : List Char) : List Char :=
  cyrRepair completion (emptyRepair completion (parse_gigachat_response completion).1)

/-- Lines 349–385: the speech part of `process_message` — run the retry
loop with `max_retries = 2` on the stripped phrase when the (repaired)
phrase is non-empty, else do nothing. -/
def ttsPart (e2 : List Char) (tts : Nat → Except Unit (List Nat))
    (noticeRes : Except Unit Unit) : List Ev :=
  if !e2.isEmpty && !(pyStrip e2).isEmpty then
    (ttsLoop (pyStrip e2) tts noticeRes 0 2).1
  else []

/-- `process_message` (lines 296–393): reject whitespace-only input before
anything else; otherwise signal typing, call the completion collaborator,
parse, apply the two repairs, send the composed text reply, and run the
speech part on the repaired phrase. -/
def process_message (userText completion : List Char)
    (tts : Nat → Except Unit (List Nat)) (noticeRes : Except Unit Unit) :
    List Ev :=
  if userText.isEmpty || (pyStrip userText).isEmpty then
    [Ev.sendText rejectMsg]
  else
    Ev.typing :: Ev.completionCall userText ::
      Ev.sendText
        (composeReply (repairedPhrase completion)
          (parse_gigachat_response completion).2) ::
      ttsPart (repairedPhrase completion) tts noticeRes

/-! ## Basic lemmas about the string primitives -/

lemma dropWhile_head_false {p : Char → Bool} {s u : List Char} {c : Char}
    (h : s.dropWhile p = c :: u) : p c = false := by
  induction s with
  | nil => simp at h
  | cons a s' ih =>
    by_cases hp : p a
    · rw [List.dropWhile_cons_of_pos hp] at h; exact ih h
    · rw [List.dropWhile_cons_of_neg hp] at h
      cases h; simpa using hp

lemma lstrip_suffix (p : Char → Bool) (s : List Char) : lstrip p s <:+ s :=
  List.dropWhile_suffix p

lemma rstrip_prefix_self (p : Char → Bool) (s : List Char) : rstrip p s <+: s := by
  have h : s.reverse.dropWhile p <:+ s.reverse := List.dropWhile_suffix p
  have h2 : (s.reverse.dropWhile p).reverse <+: s.reverse.reverse :=
    List.reverse_prefix.mpr (by simpa using h)
  simpa [rstrip] using h2

lemma stripBy_substring (p : Char → Bool) (s : List Char) : stripBy p s <:+: s :=
  List.IsInfix.trans (rstrip_prefix_self p (lstrip p s)).isInfix
    (lstrip_suffix p s).isInfix

lemma mem_of_mem_stripBy {p : Char → Bool} {s : List Char} {c : Char}
    (h : c ∈ stripBy p s) : c ∈ s :=
  (stripBy_substring p s).sublist.subset h

lemma pyStrip_head_nonspace {s u : List Char} {c : Char}
    (h : pyStrip s = c :: u) : pyIsSpace c = false := by
  obtain ⟨v, hv⟩ := rstrip_prefix_self pyIsSpace (lstrip pyIsSpace s)
  rw [pyStrip, stripBy] at h
  rw [h] at hv
  exact dropWhile_head_false (s := s) (by simpa [lstrip] using hv.symm)

lemma pyStrip_eq_nil_of_all_space {r : List Char}
    (h : ∀ c ∈ r, pyIsSpace c = true) : pyStrip r = [] := by
  have h1 : lstrip pyIsSpace r = [] := by
    simp only [lstrip, List.dropWhile_eq_nil_iff]
    intro c hc; exact h c hc
  simp [pyStrip, stripBy, h1, rstrip]

lemma hasCyr_pyStrip_false {e : List Char} (h : hasCyr e = false) :
    hasCyr (pyStrip e) = false := by
  rw [hasCyr, List.any_eq_false] at h ⊢
  intro c hc
  exact h c (mem_of_mem_stripBy hc)

/-! ## Lemmas about the repair scan -/

lemma repairScan_eq_some {pre : List (List Char)} {l : List Char}
    {post : List (List Char)}
    (hpre : ∀ m ∈ pre, repairPred (pyStrip m) = false)
    (hl : repairPred (pyStrip l) = true) :
    repairScan (pre ++ l :: post) = some (pyStrip l) := by
  induction pre with
  | nil => simp [repairScan, hl]
  | cons m pre' ih =>
    have hm := hpre m (by simp)
    simp only [List.cons_append, repairScan, hm]
    exact ih fun m' hm' => hpre m' (by simp [hm'])

lemma repairScan_eq_none {ls : List (List Char)}
    (h : ∀ m ∈ ls, repairPred (pyStrip m) = false) :
    repairScan ls = none := by
  induction ls with
  | nil => rfl
  | cons m ls' ih =>
    have hm := h m (by simp)
    simp only [repairScan, hm]
    exact ih fun m' hm' => h m' (by simp [hm'])

lemma repairScan_some_pred {ls : List (List Char)} {l : List Char}
    (h : repairScan ls = some l) : repairPred l = true := by
  induction ls with
  | nil => simp [repairScan] at h
  | cons m ls' ih =>
    by_cases hm : repairPred (pyStrip m)
    · simp only [repairScan, hm, if_pos] at h
      cases h; exact hm
    · simp only [repairScan, hm, if_neg, Bool.false_eq_true,
        not_false_eq_true] at h
      exact ih h

lemma cyrRepair_no_cyr (raw e : List Char)
    (h : (repairScan (splitOnNl raw)).isSome = true) :
    hasCyr (cyrRepair raw e) = false := by
  rw [cyrRepair]
  by_cases hc : hasCyr e
  · rw [if_pos hc]
    obtain ⟨l, hl⟩ := Option.isSome_iff_exists.mp h
    rw [hl]
    have hp := repairScan_some_pred hl
    rw [repairPred] at hp
    simp only [Bool.and_eq_true, Bool.not_eq_true'] at hp
    exact hp.1.1.1.2
  · rw [if_neg hc]
    simpa using hc

/-! ## Lemmas about the TTS retry loop -/

lemma ttsLoop_ttsCall_eq {phrase t : List Char}
    {tts : Nat → Except Unit (List Nat)} {noticeRes : Except Unit Unit} :
    ∀ {remaining attempt : Nat},
      Ev.ttsCall t ∈ (ttsLoop phrase tts noticeRes attempt remaining).1 →
      t = phrase := by
  intro remaining
  induction remaining with
  | zero => intro a h; simp [ttsLoop] at h
  | succ r ih =>
    intro a h
    simp only [ttsLoop] at h
    rcases htts : tts a with e | audio <;> rw [htts] at h
    · by_cases hr : r = 0
      · subst hr
        cases noticeRes <;> simp at h <;> exact h
      · simp [hr] at h
        rcases h with h | h
        · exact h
        · exact ih h
    · by_cases he : audio.isEmpty <;> simp [he] at h
      · by_cases hr : r = 0
        · subst hr
          cases noticeRes <;> simp at h <;> exact h
        · simp [hr] at h
          rcases h with h | h
          · exact h
          · exact ih h
      · exact h

lemma ttsLoop_zeroAsError_eq (phrase : List Char)
    (tts : Nat → Except Unit (List Nat)) (noticeRes : Except Unit Unit) :
    ∀ (remaining attempt : Nat),
      ttsLoop phrase
          (fun n => match tts n with
            | .ok a => if a.isEmpty then .error () else .ok a
            | .error e => .error e)
          noticeRes attempt remaining
        = ttsLoop phrase tts noticeRes attempt remaining := by
  intro remaining
  induction remaining with
  | zero => intro _; rfl
  | succ r ih =>
    intro a
    simp only [ttsLoop, ih]
    rcases htts : tts a with e | audio
    · simp [htts]
    · by_cases he : audio.isEmpty <;> simp [htts, he]

lemma ttsLoop_no_empty_voice (phrase : List Char)
    (tts : Nat → Except Unit (List Nat)) (noticeRes : Except Unit Unit) :
    ∀ (remaining attempt : Nat),
      Ev.sendVoice [] ∉ (ttsLoop phrase tts noticeRes attempt remaining).1 := by
  intro remaining
  induction remaining with
  | zero => intro a h; simp [ttsLoop] at h
  | succ r ih =>
    intro a h
    simp only [ttsLoop] at h
    rcases htts : tts a with e | audio <;> rw [htts] at h
    · by_cases hr : r = 0
      · subst hr; cases noticeRes <;> simp at h
      · simp [hr] at h
        exact ih (a + 1) h
    · by_cases he : audio.isEmpty <;> simp [he] at h
      · by_cases hr : r = 0
        · subst hr; cases noticeRes <;> simp at h
        · simp [hr] at h
          exact ih (a + 1) h
      · simp [h] at he

lemma ttsPart_ttsCall {e2 t : List Char} {tts : Nat → Except Unit (List Nat)}
    {noticeRes : Except Unit Unit}
    (h : Ev.ttsCall t ∈ ttsPart e2 tts noticeRes) :
    t = pyStrip e2 ∧ pyStrip e2 ≠ [] := by
  rw [ttsPart] at h
  by_cases hg : !e2.isEmpty && !(pyStrip e2).isEmpty
  · rw [if_pos hg] at h
    refine ⟨ttsLoop_ttsCall_eq h, ?_⟩
    simp only [Bool.and_eq_true, Bool.not_eq_true'] at hg
    simpa [List.isEmpty_iff] using hg.2
  · rw [if_neg hg] at h
    simp at h

/-! ## Lemmas about the separator token and `splitFirst` -/

lemma sepTok_isPrefixOf_iff {z : List Char} :
    sepTok.isPrefixOf z = true ↔ ∃ t, z = '-' :: '-' :: '-' :: t := by
  constructor
  · intro h
    rw [List.isPrefixOf_iff_prefix] at h
    obtain ⟨t, ht⟩ := h
    exact ⟨t, by rw [← ht]; rfl⟩
  · rintro ⟨t, rfl⟩
    rw [List.isPrefixOf_iff_prefix]
    exact ⟨t, rfl⟩

lemma isPrefixOf_append_left {sep u y : List Char} (h : sep.isPrefixOf u = true) :
    sep.isPrefixOf (u ++ y) = true := by
  rw [List.isPrefixOf_iff_prefix] at h ⊢
  exact h.trans (List.prefix_append u y)

lemma sep_prefix_append_cons {w : List Char} {c : Char} {t : List Char}
    (hc : ¬ c = '-') (h : sepTok.isPrefixOf (w ++ c :: t) = true) :
    sepTok.isPrefixOf w = true := by
  match w with
  | [] =>
    obtain ⟨t0, ht0⟩ := sepTok_isPrefixOf_iff.mp h
    exact absurd (List.head_eq_of_cons_eq ht0) hc
  | [a] =>
    obtain ⟨t0, ht0⟩ := sepTok_isPrefixOf_iff.mp h
    exact absurd (List.head_eq_of_cons_eq (List.tail_eq_of_cons_eq ht0)) hc
  | [a, b] =>
    obtain ⟨t0, ht0⟩ := sepTok_isPrefixOf_iff.mp h
    exact absurd
      (List.head_eq_of_cons_eq
        (List.tail_eq_of_cons_eq (List.tail_eq_of_cons_eq ht0))) hc
  | a :: b :: d :: w' =>
    obtain ⟨t0, ht0⟩ := sepTok_isPrefixOf_iff.mp h
    have ha := List.head_eq_of_cons_eq ht0
    have hb := List.head_eq_of_cons_eq (List.tail_eq_of_cons_eq ht0)
    have hd :=
      List.head_eq_of_cons_eq
        (List.tail_eq_of_cons_eq (List.tail_eq_of_cons_eq ht0))
    exact sepTok_isPrefixOf_iff.mpr ⟨w', by rw [ha, hb, hd]⟩

lemma noOcc_nil : NoOcc sepTok [] := by
  intro t ht
  rw [List.suffix_nil.mp ht]
  rfl

lemma noOcc_of_substring {s t : List Char} (hst : t <:+: s)
    (hs : NoOcc sepTok s) : NoOcc sepTok t := by
  intro u hu
  obtain ⟨x, y, hxy⟩ := hst
  by_contra hpre
  rw [Bool.not_eq_false] at hpre
  have h1 : sepTok.isPrefixOf (u ++ y) = true := isPrefixOf_append_left hpre
  have h2 : u ++ y <:+ s := by
    obtain ⟨w, hw⟩ := hu
    exact ⟨x ++ w, by rw [← hxy, ← hw]; simp⟩
  exact absurd (hs (u ++ y) h2) (by simp [h1])

lemma noOcc_cons {c : Char} {rest : List Char}
    (hp : sepTok.isPrefixOf (c :: rest) = false) (h : NoOcc sepTok rest) :
    NoOcc sepTok (c :: rest) := by
  intro t ht
  rcases List.suffix_cons_iff.mp ht with h1 | h1
  · rw [h1]; exact hp
  · exact h t h1

lemma splitFirst_eq_some_decomp {s a b : List Char}
    (h : splitFirst sepTok s = some (a, b)) : s = a ++ sepTok ++ b := by
  induction s generalizing a b with
  | nil => simp [splitFirst] at h
  | cons c rest ih =>
    rw [splitFirst] at h
    by_cases hp : sepTok.isPrefixOf (c :: rest) = true
    · rw [if_pos hp] at h
      obtain ⟨t0, ht0⟩ := sepTok_isPrefixOf_iff.mp hp
      rw [ht0] at h ⊢
      simp only [sepTok, List.length_cons, List.length_nil] at h
      simp only [List.drop] at h
      cases h
      simp [sepTok]
    · rw [if_neg hp] at h
      rcases h' : splitFirst sepTok rest with - | ⟨a', b'⟩
      · rw [h'] at h; simp at h
      · rw [h'] at h
        simp only [Option.some.injEq, Prod.mk.injEq] at h
        obtain ⟨ha, hb⟩ := h
        rw [← ha, ← hb]
        have := ih h'
        simp [this]

lemma splitFirst_eq_some_noOcc_fst {s a b : List Char}
    (h : splitFirst sepTok s = some (a, b)) : NoOcc sepTok a := by
  induction s generalizing a b with
  | nil => simp [splitFirst] at h
  | cons c rest ih =>
    rw [splitFirst] at h
    by_cases hp : sepTok.isPrefixOf (c :: rest) = true
    · rw [if_pos hp] at h
      simp only [Option.some.injEq, Prod.mk.injEq] at h
      rw [← h.1]
      exact noOcc_nil
    · rw [if_neg hp] at h
      rcases h' : splitFirst sepTok rest with - | ⟨a', b'⟩
      · rw [h'] at h; simp at h
      · rw [h'] at h
        simp only [Option.some.injEq, Prod.mk.injEq] at h
        obtain ⟨ha, hb⟩ := h
        rw [← ha]
        refine noOcc_cons ?_ (ih h')
        by_contra hpre
        rw [Bool.not_eq_false] at hpre
        obtain ⟨t0, ht0⟩ := sepTok_isPrefixOf_iff.mp hpre
        have hrest : rest = a' ++ sepTok ++ b' := splitFirst_eq_some_decomp h'
        have hc : c = '-' := List.head_eq_of_cons_eq ht0
        have ha' : a' = '-' :: '-' :: t0 := List.tail_eq_of_cons_eq ht0
        apply hp
        apply sepTok_isPrefixOf_iff.mpr
        refine ⟨t0 ++ sepTok ++ b', ?_⟩
        rw [hc, hrest, ha']
        simp

lemma splitFirst_eq_none_iff_noOcc {s : List Char} :
    splitFirst sepTok s = none ↔ NoOcc sepTok s := by
  induction s with
  | nil => exact iff_of_true rfl noOcc_nil
  | cons c rest ih =>
    rw [splitFirst]
    by_cases hp : sepTok.isPrefixOf (c :: rest) = true
    · rw [if_pos hp]
      exact iff_of_false (by simp)
        (fun hno =>
          absurd (hno (c :: rest) (List.suffix_refl _)) (by simp [hp]))
    · rw [if_neg hp]
      constructor
      · intro h
        rcases h' : splitFirst sepTok rest with - | ⟨a', b'⟩
        · exact noOcc_cons (Bool.not_eq_true _ ▸ hp) (ih.mp h')
        · rw [h'] at h; simp at h
      · intro hno
        have : splitFirst sepTok rest = none :=
          ih.mpr fun t ht => hno t (ht.trans (List.suffix_cons c rest))
        rw [this]

/-! ## Lemmas about `occCount` -/

lemma occCount_eq_zero_iff_noOcc {s : List Char} :
    occCount sepTok s = 0 ↔ NoOcc sepTok s := by
  induction s with
  | nil => exact iff_of_true rfl noOcc_nil
  | cons c rest ih =>
    rw [occCount]
    by_cases hp : sepTok.isPrefixOf (c :: rest) = true
    · rw [if_pos hp]
      exact iff_of_false (by omega)
        (fun hno =>
          absurd (hno (c :: rest) (List.suffix_refl _)) (by simp [hp]))
    · rw [if_neg hp, Nat.zero_add]
      constructor
      · intro h
        exact noOcc_cons (Bool.not_eq_true _ ▸ hp) (ih.mp h)
      · intro hno
        exact ih.mpr fun t ht => hno t (ht.trans (List.suffix_cons c rest))

lemma occCount_le_append (x y : List Char) :
    occCount sepTok y ≤ occCount sepTok (x ++ y) := by
  induction x with
  | nil => simp
  | cons c x' ih =>
    rw [List.cons_append, occCount]
    exact ih.trans (Nat.le_add_left _ _)

lemma occCount_cons_le (c : Char) (t : List Char) :
    occCount sepTok t ≤ occCount sepTok (c :: t) := by
  rw [occCount]
  exact Nat.le_add_left _ _

lemma occCount_sep_append (b : List Char) :
    occCount sepTok b + 1 ≤ occCount sepTok (sepTok ++ b) := by
  have h0 : sepTok.isPrefixOf (sepTok ++ b) = true :=
    isPrefixOf_append_left (by rw [List.isPrefixOf_iff_prefix])
  show occCount sepTok b + 1 ≤ occCount sepTok ('-' :: '-' :: '-' :: b)
  rw [occCount]
  have h1 : sepTok.isPrefixOf ('-' :: '-' :: '-' :: b) = true := h0
  rw [if_pos h1]
  have h2 := (occCount_cons_le '-' b).trans (occCount_cons_le '-' ('-' :: b))
  omega

lemma occCount_space_leading {u : List Char} (x : List Char)
    (h : ∀ c ∈ u, pyIsSpace c = true) :
    occCount sepTok (u ++ x) = occCount sepTok x := by
  induction u with
  | nil => simp
  | cons c u' ih =>
    rw [List.cons_append, occCount]
    have hc : sepTok.isPrefixOf (c :: (u' ++ x)) = false := by
      by_contra hpre
      rw [Bool.not_eq_false] at hpre
      obtain ⟨t0, ht0⟩ := sepTok_isPrefixOf_iff.mp hpre
      have : c = '-' := List.head_eq_of_cons_eq ht0
      have := h c (by simp)
      rw [‹c = '-'›] at this
      simp [pyIsSpace] at this
    rw [if_neg (by simp [hc])]
    rw [Nat.zero_add]
    exact ih fun d hd => h d (by simp [hd])

lemma isPrefixOf_append_space {v : List Char} (y : List Char)
    (h : ∀ c ∈ v, pyIsSpace c = true) :
    sepTok.isPrefixOf (y ++ v) = sepTok.isPrefixOf y := by
  cases hy : sepTok.isPrefixOf y
  · cases v with
    | nil => rw [List.append_nil, hy]
    | cons c v' =>
      cases hb : sepTok.isPrefixOf (y ++ c :: v')
      · rfl
      · exfalso
        have hc : ¬ c = '-' := by
          intro hceq
          have hsp := h c (by simp)
          rw [hceq] at hsp
          simp [pyIsSpace] at hsp
        have hcontra := sep_prefix_append_cons hc hb
        rw [hy] at hcontra
        exact Bool.false_ne_true hcontra
  · rw [isPrefixOf_append_left hy]

lemma occCount_space_suffix {v : List Char} (x : List Char)
    (h : ∀ c ∈ v, pyIsSpace c = true) :
    occCount sepTok (x ++ v) = occCount sepTok x := by
  induction x with
  | nil =>
    simp only [List.nil_append, occCount]
    induction v with
    | nil => rfl
    | cons c v' ihv =>
      rw [occCount]
      have hc : sepTok.isPrefixOf (c :: v') = false := by
        by_contra hpre
        rw [Bool.not_eq_false] at hpre
        obtain ⟨t0, ht0⟩ := sepTok_isPrefixOf_iff.mp hpre
        have hcd : c = '-' := List.head_eq_of_cons_eq ht0
        have := h c (by simp)
        rw [hcd] at this
        simp [pyIsSpace] at this
      rw [if_neg (by simp [hc]), Nat.zero_add]
      exact ihv fun d hd => h d (by simp [hd])
  | cons c x' ih =>
    rw [List.cons_append, occCount, occCount]
    have : sepTok.isPrefixOf (c :: x' ++ v) = sepTok.isPrefixOf (c :: x') := by
      have := isPrefixOf_append_space (c :: x') h
      simpa using this
    rw [List.cons_append] at this
    rw [this, ih]

/-! ## Strip decomposition and idempotence -/

lemma lstrip_decomp (p : Char → Bool) (s : List Char) :
    ∃ u, (∀ c ∈ u, p c = true) ∧ s = u ++ lstrip p s :=
  ⟨s.takeWhile p, fun _ hc => List.mem_takeWhile_imp hc,
    (List.takeWhile_append_dropWhile p s).symm⟩

lemma rstrip_decomp (p : Char → Bool) (s : List Char) :
    ∃ v, (∀ c ∈ v, p c = true) ∧ s = rstrip p s ++ v := by
  refine ⟨(s.reverse.takeWhile p).reverse, ?_, ?_⟩
  · intro c hc
    exact List.mem_takeWhile_imp (List.mem_reverse.mp hc)
  · rw [rstrip]
    conv_lhs => rw [← List.reverse_reverse s,
      ← List.takeWhile_append_dropWhile p s.reverse]
    rw [List.reverse_append]

lemma occCount_pyStrip (r : List Char) :
    occCount sepTok (pyStrip r) = occCount sepTok r := by
  obtain ⟨u, hu, hdu⟩ := lstrip_decomp pyIsSpace r
  obtain ⟨v, hv, hdv⟩ := rstrip_decomp pyIsSpace (lstrip pyIsSpace r)
  conv_rhs => rw [hdu]
  rw [occCount_space_leading _ hu]
  conv_rhs => rw [hdv]
  rw [occCount_space_suffix _ hv]
  rfl

lemma dropWhile_idem (p : Char → Bool) (l : List Char) :
    List.dropWhile p (List.dropWhile p l) = List.dropWhile p l := by
  induction l with
  | nil => rfl
  | cons c t ih =>
    by_cases hp : p c
    · rw [List.dropWhile_cons_of_pos hp]; exact ih
    · rw [List.dropWhile_cons_of_neg hp, List.dropWhile_cons_of_neg hp]

lemma rstrip_idem (p : Char → Bool) (s : List Char) :
    rstrip p (rstrip p s) = rstrip p s := by
  rw [rstrip, rstrip, List.reverse_reverse, dropWhile_idem]

lemma lstrip_rstrip_lstrip (p : Char → Bool) (s : List Char) :
    lstrip p (rstrip p (lstrip p s)) = rstrip p (lstrip p s) := by
  rcases hq : rstrip p (lstrip p s) with - | ⟨c, t⟩
  · rfl
  · obtain ⟨v, -, hdv⟩ := rstrip_decomp p (lstrip p s)
    rw [hq] at hdv
    have h' : s.dropWhile p = c :: (t ++ v) := by simpa [lstrip] using hdv
    have hhead : p c = false := dropWhile_head_false h'
    rw [lstrip, List.dropWhile_cons_of_neg (by simp [hhead])]

lemma pyStrip_idem (s : List Char) : pyStrip (pyStrip s) = pyStrip s := by
  show stripBy pyIsSpace (stripBy pyIsSpace s) = stripBy pyIsSpace s
  rw [stripBy, stripBy, lstrip_rstrip_lstrip, rstrip_idem]

/-! ## Lemmas about the fallback line scan -/

lemma findPhraseLine_eq_some {pre : List (List Char)} {l : List Char}
    {post : List (List Char)}
    (hpre : ∀ m ∈ pre, phrasePred m = false) (hl : phrasePred l = true) :
    findPhraseLine (pre ++ l :: post) = some (l, post) := by
  induction pre with
  | nil => simp [findPhraseLine, hl]
  | cons m pre' ih =>
    have hm := hpre m (by simp)
    simp only [List.cons_append, findPhraseLine, hm]
    exact ih fun m' hm' => hpre m' (by simp [hm'])

lemma findPhraseLine_eq_none {ls : List (List Char)}
    (h : ∀ m ∈ ls, phrasePred m = false) : findPhraseLine ls = none := by
  induction ls with
  | nil => rfl
  | cons m ls' ih =>
    have hm := h m (by simp)
    simp only [findPhraseLine, hm]
    exact ih fun m' hm' => h m' (by simp [hm'])

/-! ## Claims C1, C2, C7 -/

/-- **C1.**  For every reply containing `---` exactly once, `split`
returns phrase = the text before the separator (trimmed, bracket
characters stripped at the ends, whitespace runs collapsed) and
explanation = the text after the separator (trimmed only).  The
decomposition `pyStrip r = a ++ sepTok ++ b` with no further occurrence
in `a` or `b` pins `a`/`b` as exactly the text before/after the unique
separator occurrence. -/
theorem claim1_separator_split (r : List Char)
    (h : occCount sepTok r = 1) :
    ∃ a b, pyStrip r = a ++ sepTok ++ b ∧
      occCount sepTok a = 0 ∧ occCount sepTok b = 0 ∧
      parse_gigachat_response r =
        (collapseWs (pyStrip (stripBrackets (pyStrip a))), pyStrip b) := by
  have h1 : occCount sepTok (pyStrip r) = 1 := by
    rw [occCount_pyStrip]; exact h
  rcases hab : splitFirst sepTok (pyStrip r) with - | ⟨a, b⟩
  · have hz := occCount_eq_zero_iff_noOcc.mpr
      (splitFirst_eq_none_iff_noOcc.mp hab)
    omega
  · have hdec := splitFirst_eq_some_decomp hab
    refine ⟨a, b, hdec,
      occCount_eq_zero_iff_noOcc.mpr (splitFirst_eq_some_noOcc_fst hab),
      ?_, ?_⟩
    · have hge : occCount sepTok b + 1 ≤ occCount sepTok (pyStrip r) := by
        rw [hdec, List.append_assoc]
        exact (occCount_sep_append b).trans
          (occCount_le_append a (sepTok ++ b))
      omega
    · simp only [parse_gigachat_response, splitRaw, hab, pyStrip_idem]

/-- Witness for C1 at the reply `"Hello world.\n---\nОбъяснение."`. -/
theorem claim1_separator_split_witness :
    occCount sepTok "Hello world.\n---\nОбъяснение.".toList = 1 ∧
    (∃ a b, pyStrip "Hello world.\n---\nОбъяснение.".toList =
        a ++ sepTok ++ b ∧
      occCount sepTok a = 0 ∧ occCount sepTok b = 0 ∧
      parse_gigachat_response "Hello world.\n---\nОбъяснение.".toList =
        (collapseWs (pyStrip (stripBrackets (pyStrip a))), pyStrip b)) :=
  ⟨by decide, claim1_separator_split _ (by decide)⟩

/-- **C2, counterexample.**  The claim says the first qualifying line is
selected *as the phrase*; but the code post-processes the selected line,
so for `"Hello  world\nпривет"` the selected line is `"Hello  world"`
while the returned phrase is `"Hello world"` (whitespace collapsed). -/
theorem claim2_counterexample :
    cleanLines (pyStrip "Hello  world\nпривет".toList) =
      ["Hello  world".toList, "привет".toList] ∧
    phrasePred "Hello  world".toList = true ∧
    parse_gigachat_response "Hello  world\nпривет".toList =
      ("Hello world".toList, "привет".toList) ∧
    "Hello world".toList ≠ "Hello  world".toList :=
  ⟨by decide, by decide, by decide, by decide⟩

/-- **C2, amended.**  Separator absent: the reply is split into non-empty
trimmed lines; the first line with an ASCII letter, no Cyrillic and no
leading `[` is selected, and the phrase is that line *after the standard
post-processing* (brackets stripped at the ends, whitespace collapsed);
the following lines joined with newlines (trimmed) form the explanation.
If no line qualifies, the first line (same post-processing) becomes the
phrase and the remaining lines the explanation. -/
theorem claim2_fallback_selection :
    (∀ (r : List Char) (pre : List (List Char)) (l : List Char)
        (post : List (List Char)),
      splitFirst sepTok (pyStrip r) = none →
      cleanLines (pyStrip r) = pre ++ l :: post →
      (∀ m ∈ pre, phrasePred m = false) →
      phrasePred l = true →
      parse_gigachat_response r =
        (collapseWs (pyStrip (stripBrackets l)),
          pyStrip (joinSep ['\n'] post))) ∧
    (∀ (r l0 : List Char) (rest : List (List Char)),
      splitFirst sepTok (pyStrip r) = none →
      cleanLines (pyStrip r) = l0 :: rest →
      (∀ m ∈ l0 :: rest, phrasePred m = false) →
      parse_gigachat_response r =
        (collapseWs (pyStrip (stripBrackets l0)),
          pyStrip (joinSep ['\n'] rest))) := by
  constructor
  · intro r pre l post hsf hdec hpre hl
    have hfind : findPhraseLine (cleanLines (pyStrip r)) = some (l, post) := by
      rw [hdec]; exact findPhraseLine_eq_some hpre hl
    simp only [parse_gigachat_response, splitRaw, hsf, hfind, pyStrip_idem]
  · intro r l0 rest hsf hdec hall
    have hfind : findPhraseLine (l0 :: rest) = none :=
      findPhraseLine_eq_none hall
    simp only [parse_gigachat_response, splitRaw, hsf, hdec, hfind, pyStrip_idem]

/-- Witness for C2 (amended) at the reply `"Hi\nпривет"`. -/
theorem claim2_fallback_selection_witness :
    splitFirst sepTok (pyStrip "Hi\nпривет".toList) = none ∧
    cleanLines (pyStrip "Hi\nпривет".toList) =
      [] ++ "Hi".toList :: ["привет".toList] ∧
    (∀ m ∈ ([] : List (List Char)), phrasePred m = false) ∧
    phrasePred "Hi".toList = true ∧
    parse_gigachat_response "Hi\nпривет".toList =
      (collapseWs (pyStrip (stripBrackets "Hi".toList)),
        pyStrip (joinSep ['\n'] ["привет".toList])) :=
  ⟨by decide, by decide, by decide, by decide,
    claim2_fallback_selection.1 "Hi\nпривет".toList [] "Hi".toList
      ["привет".toList] (by decide) (by decide) (by decide) (by decide)⟩

/-- **C7, counterexample.**  The claim says the explanation's internal
line structure is preserved in both strategies; but in the fallback
strategy the explanation is rebuilt from the trimmed non-empty lines, so
for `"Hello\nа\n\nб"` the raw tail (trimmed) is `"а\n\nб"` while the
returned explanation is `"а\nб"` — the blank line is dropped. -/
theorem claim7_counterexample :
    (parse_gigachat_response "Hello\nа\n\nб".toList).2 = "а\nб".toList ∧
    "а\nб".toList ≠ pyStrip "а\n\nб".toList :=
  ⟨by decide, by decide⟩

/-- **C7, amended.**  In the separator strategy the explanation is the
text after the first separator, trimmed at its ends only (internal
whitespace and blank lines preserved).  In the fallback strategy the
explanation is the newline-join of the trimmed non-empty lines after the
selected line (blank lines dropped, per-line whitespace trimmed), so raw
structure is not preserved there. -/
theorem claim7_explanation_structure :
    (∀ r a b : List Char,
      splitFirst sepTok (pyStrip r) = some (a, b) →
      (parse_gigachat_response r).2 = pyStrip b) ∧
    (∀ r : List Char,
      splitFirst sepTok (pyStrip r) = none →
      (parse_gigachat_response r).2 =
        pyStrip (joinSep ['\n']
          (match findPhraseLine (cleanLines (pyStrip r)) with
           | some pr => pr.2
           | none => (cleanLines (pyStrip r)).tail))) := by
  constructor
  · intro r a b hsf
    simp only [parse_gigachat_response, splitRaw, hsf, pyStrip_idem]
  · intro r hsf
    rcases hfind : findPhraseLine (cleanLines (pyStrip r)) with - | ⟨l, rest⟩
    · rcases hlines : cleanLines (pyStrip r) with - | ⟨l0, rest0⟩
      · simp only [parse_gigachat_response, splitRaw, hsf, hfind, hlines,
          List.tail_nil]
        rfl
      · rw [hlines] at hfind
        simp only [parse_gigachat_response, splitRaw, hsf, hlines, hfind,
          List.tail_cons, pyStrip_idem]
    · simp only [parse_gigachat_response, splitRaw, hsf, hfind, pyStrip_idem]

/-- Witness for C7 (amended) at a reply whose explanation has internal
blank lines and indentation. -/
theorem claim7_explanation_structure_witness :
    splitFirst sepTok (pyStrip "Hello\n---\n  Пояснение\n\nещё".toList) =
      some ("Hello\n".toList, "\n  Пояснение\n\nещё".toList) ∧
    (parse_gigachat_response "Hello\n---\n  Пояснение\n\nещё".toList).2 =
      pyStrip "\n  Пояснение\n\nещё".toList :=
  ⟨by decide,
    claim7_explanation_structure.1 "Hello\n---\n  Пояснение\n\nещё".toList
      "Hello\n".toList "\n  Пояснение\n\nещё".toList (by decide)⟩

/-! ## Claims C3–C6, C9, C10 -/

/-- **C3.**  For every completion reply whose parsed phrase contains at
least one Cyrillic character, the repair pass replaces the phrase with the
first line of the raw reply that (once stripped, as the code strips each
scanned line) contains alphabetic characters, contains no Cyrillic
characters, does not contain `---` and does not start with `[`; if no such
line exists the phrase is left unchanged. -/
theorem claim3_first_qualifying_line :
    (∀ (raw e : List Char) (pre : List (List Char)) (l : List Char)
        (post : List (List Char)),
      hasCyr e = true →
      splitOnNl raw = pre ++ l :: post →
      (∀ m ∈ pre, repairPred (pyStrip m) = false) →
      repairPred (pyStrip l) = true →
      cyrRepair raw e = pyStrip l) ∧
    (∀ raw e : List Char,
      hasCyr e = true →
      (∀ m ∈ splitOnNl raw, repairPred (pyStrip m) = false) →
      cyrRepair raw e = e) := by
  constructor
  · intro raw e pre l post hcyr hdec hpre hl
    rw [cyrRepair, if_pos hcyr, hdec, repairScan_eq_some hpre hl]
  · intro raw e hcyr hall
    rw [cyrRepair, if_pos hcyr, repairScan_eq_none hall]

/-- Witness for C3 at raw reply `"Привет\nHello"` and phrase `"Привет"`. -/
theorem claim3_first_qualifying_line_witness :
    hasCyr "Привет".toList = true ∧
    splitOnNl "Привет\nHello".toList =
      ["Привет".toList] ++ "Hello".toList :: [] ∧
    (∀ m ∈ ["Привет".toList], repairPred (pyStrip m) = false) ∧
    repairPred (pyStrip "Hello".toList) = true ∧
    cyrRepair "Привет\nHello".toList "Привет".toList = pyStrip "Hello".toList :=
  ⟨by decide, by decide, by decide, by decide,
    claim3_first_qualifying_line.1 "Привет\nHello".toList "Привет".toList
      ["Привет".toList] "Hello".toList [] (by decide) (by decide)
      (by decide) (by decide)⟩

/-- **C4.**  For every non-empty phrase and a synthesiser that fails on
every call, the delivery policy with `max_retries = 2` makes exactly two
synthesis attempts with exactly one backoff wait between them (none after
the last), delivers no audio, and issues exactly one user-visible failure
notice; the trace and outcome are the same whether sending that notice
succeeds or raises (`noticeRes` is universally quantified), so an error
raised while sending the notice does not propagate. -/
theorem claim4_always_failing_two_attempts (phrase : List Char)
    (tts : Nat → Except Unit (List Nat)) (noticeRes : Except Unit Unit)
    (_hne : phrase ≠ []) (hfail : ∀ n, tts n = .error ()) :
    ttsLoop phrase tts noticeRes 0 2 =
      ([Ev.recording, Ev.ttsCall phrase, Ev.sleep,
        Ev.recording, Ev.ttsCall phrase, Ev.sendText failNote], false) := by
  cases noticeRes <;> simp [ttsLoop, hfail]

/-- Witness for C4 at phrase `"Hi"` and a failing notice send. -/
theorem claim4_always_failing_two_attempts_witness :
    "Hi".toList ≠ ([] : List Char) ∧
    ttsLoop "Hi".toList (fun _ => .error ()) (.error ()) 0 2 =
      ([Ev.recording, Ev.ttsCall "Hi".toList, Ev.sleep,
        Ev.recording, Ev.ttsCall "Hi".toList, Ev.sendText failNote], false) :=
  ⟨by decide,
    claim4_always_failing_two_attempts "Hi".toList (fun _ => .error ())
      (.error ()) (by decide) (fun _ => rfl)⟩

set_option maxHeartbeats 2000000 in
/-- **C5, counterexample.**  The claim says every phrase passed to speech
synthesis contains no Cyrillic characters; but for the reply `"Привет"`
(no qualifying repair line exists) the orchestrator calls the synthesiser
with the Cyrillic phrase unchanged. -/
theorem claim5_counterexample :
    Ev.ttsCall "Привет".toList ∈
      process_message "hi".toList "Привет".toList (fun _ => .ok [1]) (.ok ()) ∧
    hasCyr "Привет".toList = true := by
  constructor <;> decide

/-- **C5, amended.**  Whenever the orchestrator invokes speech synthesis,
the phrase it passes is non-empty (it contains a non-whitespace
character); and it contains no Cyrillic characters *provided the raw reply
contains at least one line passing the repair test* (alphabetic, no
Cyrillic, no `---`, not starting with `[`) — without such a line the
best-effort repair can leave Cyrillic in the phrase. -/
theorem claim5_amended (userText completion : List Char)
    (tts : Nat → Except Unit (List Nat)) (noticeRes : Except Unit Unit)
    (t : List Char)
    (hmem : Ev.ttsCall t ∈ process_message userText completion tts noticeRes) :
    (∃ c ∈ t, pyIsSpace c = false) ∧
    ((repairScan (splitOnNl completion)).isSome = true → hasCyr t = false) := by
  rw [process_message] at hmem
  by_cases hg : userText.isEmpty || (pyStrip userText).isEmpty
  · rw [if_pos hg] at hmem; simp at hmem
  · rw [if_neg hg] at hmem
    simp only [List.mem_cons] at hmem
    rcases hmem with h | h | h | h
    · exact absurd h (by simp)
    · exact absurd h (by simp)
    · exact absurd h (by simp)
    · obtain ⟨ht, hne⟩ := ttsPart_ttsCall h
      clear h hg
      refine ⟨?_, ?_⟩
      · obtain ⟨c, u, hcu⟩ := List.exists_cons_of_ne_nil hne
        exact ⟨c, by rw [ht, hcu]; simp, pyStrip_head_nonspace hcu⟩
      · intro hsome
        rw [ht]
        exact hasCyr_pyStrip_false (cyrRepair_no_cyr completion _ hsome)

/-- Witness for C5 (amended) at reply `"Hello\nПривет"`. -/
theorem claim5_amended_witness :
    Ev.ttsCall "Hello".toList ∈
      process_message "hi".toList "Hello\nПривет".toList
        (fun _ => .ok [1]) (.ok ()) ∧
    ((∃ c ∈ "Hello".toList, pyIsSpace c = false) ∧
      ((repairScan (splitOnNl "Hello\nПривет".toList)).isSome = true →
        hasCyr "Hello".toList = false)) :=
  ⟨by decide,
    claim5_amended "hi".toList "Hello\nПривет".toList (fun _ => .ok [1])
      (.ok ()) "Hello".toList (by decide)⟩

/-- **C6.**  A synthesis attempt returning zero-length audio is treated
exactly like a raised transport error: refitting the synthesiser so that
zero-length results become errors leaves the whole delivery behaviour
(trace and outcome) unchanged, and zero-length audio is never delivered
to the user. -/
theorem claim6_zero_length_is_failure :
    ∀ (phrase : List Char) (tts : Nat → Except Unit (List Nat))
      (noticeRes : Except Unit Unit) (attempt remaining : Nat),
      ttsLoop phrase
          (fun n => match tts n with
            | .ok a => if a.isEmpty then .error () else .ok a
            | .error e => .error e)
          noticeRes attempt remaining
        = ttsLoop phrase tts noticeRes attempt remaining ∧
      Ev.sendVoice [] ∉ (ttsLoop phrase tts noticeRes attempt remaining).1 :=
  fun phrase tts noticeRes attempt remaining =>
    ⟨ttsLoop_zeroAsError_eq phrase tts noticeRes remaining attempt,
      ttsLoop_no_empty_voice phrase tts noticeRes remaining attempt⟩

/-- **C9.**  A message whose text is empty or whitespace-only produces
exactly one effect — the rejection message — and nothing else: no typing
signal, no completion call, no speech, no other send. -/
theorem claim9_whitespace_rejection (userText completion : List Char)
    (tts : Nat → Except Unit (List Nat)) (noticeRes : Except Unit Unit)
    (h : pyStrip userText = []) :
    process_message userText completion tts noticeRes =
      [Ev.sendText rejectMsg] := by
  simp [process_message, h]

/-- Witness for C9 at the whitespace-only message `"  \n "`. -/
theorem claim9_whitespace_rejection_witness :
    pyStrip "  \n ".toList = [] ∧
    process_message "  \n ".toList "Hello\n---\nПривет".toList
        (fun _ => .error ()) (.ok ()) = [Ev.sendText rejectMsg] :=
  ⟨by decide,
    claim9_whitespace_rejection "  \n ".toList "Hello\n---\nПривет".toList
      (fun _ => .error ()) (.ok ()) (by decide)⟩

/-- **C10.**  `parse_gigachat_response` is a total function of its input
(in this embedding it is a Lean function, so every input yields a pair);
in particular, on the degenerate inputs — the empty string and
whitespace-only strings, where the non-empty-line list is empty — the
guarded first-line access yields phrase `""` and explanation `""`. -/
theorem claim10_degenerate_inputs (r : List Char)
    (h : ∀ c ∈ r, pyIsSpace c = true) :
    parse_gigachat_response r = ([], []) := by
  have h0 : pyStrip r = [] := pyStrip_eq_nil_of_all_space h
  simp [parse_gigachat_response, splitRaw, h0]
  decide

/-- Witness for C10 at the whitespace-only reply `" \n\t "`. -/
theorem claim10_degenerate_inputs_witness :
    (∀ c ∈ " \n\t ".toList, pyIsSpace c = true) ∧
    parse_gigachat_response " \n\t ".toList = ([], []) :=
  ⟨by decide, claim10_degenerate_inputs " \n\t ".toList (by decide)⟩

/-! ## Lemmas about `pySplitWs` / `joinSep` (for the C8 round-trip) -/

lemma wordsAux_append_word {w : List Char} (t acc : List Char)
    (hw : ∀ c ∈ w, pyIsSpace c = false) :
    wordsAux (w ++ t) acc = wordsAux t (w.reverse ++ acc) := by
  induction w generalizing acc with
  | nil => simp
  | cons c w' ih =>
    have hc := hw c (by simp)
    rw [List.cons_append, wordsAux, if_neg (by simp [hc])]
    rw [ih (c :: acc) (fun d hd => hw d (by simp [hd]))]
    congr 1
    simp

lemma pySplitWs_joinSep {ws : List (List Char)}
    (hwf : ∀ w ∈ ws, w ≠ [] ∧ ∀ c ∈ w, pyIsSpace c = false) :
    pySplitWs (joinSep [' '] ws) = ws := by
  induction ws with
  | nil => rfl
  | cons w ws' ih =>
    obtain ⟨hw_ne, hw_sf⟩ := hwf w (by simp)
    cases ws' with
    | nil =>
      show wordsAux (joinSep [' '] [w]) [] = [w]
      rw [joinSep]
      rw [show w = w ++ [] by simp, wordsAux_append_word [] [] hw_sf]
      rw [wordsAux, if_neg (by simpa [List.isEmpty_iff] using hw_ne)]
      simp
    | cons w2 ws'' =>
      show wordsAux (joinSep [' '] (w :: w2 :: ws'')) [] = w :: w2 :: ws''
      rw [joinSep]
      rw [show w ++ [' '] ++ joinSep [' '] (w2 :: ws'') =
        w ++ (' ' :: joinSep [' '] (w2 :: ws'')) by simp]
      rw [wordsAux_append_word _ [] hw_sf]
      rw [wordsAux, if_pos (by simp [pyIsSpace])]
      rw [if_neg (by simpa [List.isEmpty_iff] using hw_ne)]
      rw [List.append_nil, List.reverse_reverse]
      rw [show wordsAux (joinSep [' '] (w2 :: ws'')) [] =
        pySplitWs (joinSep [' '] (w2 :: ws'')) from rfl]
      rw [ih (fun w' hw' => hwf w' (by simp [hw']))]

lemma wordsAux_wf (s : List Char) :
    ∀ acc, (∀ c ∈ acc, pyIsSpace c = false) →
      ∀ w ∈ wordsAux s acc, w ≠ [] ∧ ∀ c ∈ w, pyIsSpace c = false := by
  induction s with
  | nil =>
    intro acc hacc w hw
    rw [wordsAux] at hw
    by_cases he : acc.isEmpty
    · rw [if_pos he] at hw; simp at hw
    · rw [if_neg he] at hw
      simp only [List.mem_singleton] at hw
      subst hw
      refine ⟨?_, fun c hc => hacc c (List.mem_reverse.mp hc)⟩
      simp only [ne_eq, List.reverse_eq_nil_iff]
      simpa [List.isEmpty_iff] using he
  | cons c rest ih =>
    intro acc hacc w hw
    rw [wordsAux] at hw
    by_cases hc : pyIsSpace c
    · rw [if_pos hc] at hw
      by_cases he : acc.isEmpty
      · rw [if_pos he] at hw
        exact ih [] (by simp) w hw
      · rw [if_neg he] at hw
        rcases List.mem_cons.mp hw with rfl | hw'
        · refine ⟨?_, fun d hd => hacc d (List.mem_reverse.mp hd)⟩
          simp only [ne_eq, List.reverse_eq_nil_iff]
          simpa [List.isEmpty_iff] using he
        · exact ih [] (by simp) w hw'
    · rw [if_neg hc] at hw
      refine ih (c :: acc) ?_ w hw
      intro d hd
      rcases List.mem_cons.mp hd with rfl | hd'
      · simpa using hc
      · exact hacc d hd'

lemma pySplitWs_wf {s : List Char} :
    ∀ w ∈ pySplitWs s, w ≠ [] ∧ ∀ c ∈ w, pyIsSpace c = false :=
  wordsAux_wf s [] (by simp)

lemma wordsAux_substring (s : List Char) :
    ∀ acc, ∀ w ∈ wordsAux s acc, w <:+: acc.reverse ++ s := by
  induction s with
  | nil =>
    intro acc w hw
    rw [wordsAux] at hw
    by_cases he : acc.isEmpty
    · rw [if_pos he] at hw; simp at hw
    · rw [if_neg he] at hw
      simp only [List.mem_singleton] at hw
      subst hw
      simp
  | cons c rest ih =>
    intro acc w hw
    rw [wordsAux] at hw
    by_cases hc : pyIsSpace c
    · rw [if_pos hc] at hw
      by_cases he : acc.isEmpty
      · rw [if_pos he] at hw
        exact (by simpa using ih [] w hw : w <:+: rest).trans
          ⟨acc.reverse ++ [c], [], by simp⟩
      · rw [if_neg he] at hw
        rcases List.mem_cons.mp hw with rfl | hw'
        · exact ⟨[], c :: rest, by simp⟩
        · exact (by simpa using ih [] w hw' : w <:+: rest).trans
            ⟨acc.reverse ++ [c], [], by simp⟩
    · rw [if_neg hc] at hw
      have := ih (c :: acc) w hw
      simpa [List.append_assoc] using this

lemma pySplitWs_mem_substring {s w : List Char} (h : w ∈ pySplitWs s) :
    w <:+: s := by
  have := wordsAux_substring s [] w h
  simpa using this

lemma mem_joinSep_space {ws : List (List Char)} {c : Char}
    (h : c ∈ joinSep [' '] ws) : (∃ w ∈ ws, c ∈ w) ∨ c = ' ' := by
  induction ws with
  | nil => simp [joinSep] at h
  | cons w ws' ih =>
    cases ws' with
    | nil =>
      rw [joinSep] at h
      exact Or.inl ⟨w, by simp, h⟩
    | cons w2 ws'' =>
      rw [joinSep] at h
      simp only [List.mem_append, List.mem_singleton] at h
      rcases h with (h | h) | h
      · exact Or.inl ⟨w, by simp, h⟩
      · exact Or.inr h
      · rcases ih h with ⟨w', hw', hc'⟩ | h'
        · exact Or.inl ⟨w', by simp [hw'], hc'⟩
        · exact Or.inr h'

lemma collapseWs_no_nl (s : List Char) : '\n' ∉ collapseWs s := by
  rw [collapseWs]
  intro hmem
  rcases mem_joinSep_space hmem with ⟨w, hw, hc⟩ | h
  · have := (pySplitWs_wf w hw).2 '\n' hc
    simp [pyIsSpace] at this
  · simp at h

lemma collapseWs_collapseWs (s : List Char) :
    collapseWs (collapseWs s) = collapseWs s := by
  rw [collapseWs, collapseWs, pySplitWs_joinSep (fun w hw => pySplitWs_wf w hw)]

lemma joinSep_space_head {ws : List (List Char)} {c : Char} {t : List Char}
    (hwf : ∀ w ∈ ws, w ≠ [] ∧ ∀ d ∈ w, pyIsSpace d = false)
    (h : joinSep [' '] ws = c :: t) : pyIsSpace c = false := by
  cases ws with
  | nil => simp [joinSep] at h
  | cons w ws' =>
    obtain ⟨hne, hsf⟩ := hwf w (by simp)
    obtain ⟨c0, w', rfl⟩ := List.exists_cons_of_ne_nil hne
    cases ws' with
    | nil =>
      rw [joinSep] at h
      cases h
      exact hsf c (by simp)
    | cons w2 ws'' =>
      rw [joinSep] at h
      simp only [List.cons_append, List.cons.injEq] at h
      rw [← h.1]
      exact hsf c0 (by simp)

lemma joinSep_space_last {ws : List (List Char)} {xinit : List Char} {c : Char}
    (hwf : ∀ w ∈ ws, w ≠ [] ∧ ∀ d ∈ w, pyIsSpace d = false)
    (h : joinSep [' '] ws = xinit ++ [c]) : pyIsSpace c = false := by
  induction ws generalizing xinit with
  | nil => simp [joinSep] at h
  | cons w ws' ih =>
    cases ws' with
    | nil =>
      obtain ⟨hne, hsf⟩ := hwf w (by simp)
      rw [joinSep] at h
      have hc : c ∈ w := by rw [h]; simp
      exact hsf c hc
    | cons w2 ws'' =>
      rw [joinSep] at h
      have hlast : (w ++ [' '] ++ joinSep [' '] (w2 :: ws'')).getLast? = some c := by
        rw [h, List.getLast?_concat]
      obtain ⟨hne2, -⟩ := hwf w2 (by simp)
      have hj_ne : joinSep [' '] (w2 :: ws'') ≠ [] := by
        cases ws'' with
        | nil => rw [joinSep]; exact hne2
        | cons w3 ws''' =>
          rw [joinSep]
          simp [hne2]
      obtain ⟨ji, jc, hjdec⟩ :
          ∃ ji jc, joinSep [' '] (w2 :: ws'') = ji ++ [jc] := by
        rcases List.eq_nil_or_concat (joinSep [' '] (w2 :: ws'')) with hnil | ⟨ji, jc, hj⟩
        · exact absurd hnil hj_ne
        · exact ⟨ji, jc, by rw [hj, List.concat_eq_append]⟩
      have : c = jc := by
        rw [hjdec] at hlast
        rw [show w ++ [' '] ++ (ji ++ [jc]) = (w ++ [' '] ++ ji) ++ [jc] by
          simp] at hlast
        rw [List.getLast?_concat] at hlast
        exact (Option.some.injEq _ _ ▸ hlast).symm
      rw [← this] at hjdec
      exact ih (fun w' hw' => hwf w' (by simp [hw'])) hjdec

/-! ## Strip fixed points and `NoOcc` composition (for the C8 round-trip) -/

lemma lstrip_cons_of_neg {p : Char → Bool} {c : Char} {t : List Char}
    (hc : p c = false) : lstrip p (c :: t) = c :: t := by
  rw [lstrip, List.dropWhile_cons_of_neg (by simp [hc])]

lemma rstrip_concat_of_neg {p : Char → Bool} {x : List Char} {c : Char}
    (hc : p c = false) : rstrip p (x ++ [c]) = x ++ [c] := by
  rw [rstrip, List.reverse_append]
  simp only [List.reverse_cons, List.reverse_nil, List.nil_append,
    List.singleton_append]
  rw [List.dropWhile_cons_of_neg (by simp [hc])]
  simp

lemma stripBy_eq_self {p : Char → Bool} {s : List Char}
    (hhead : ∀ c t, s = c :: t → p c = false)
    (hlast : ∀ x c, s = x ++ [c] → p c = false) :
    stripBy p s = s := by
  cases hs : s with
  | nil => rfl
  | cons c t =>
    rw [stripBy, lstrip_cons_of_neg (hhead c t hs)]
    rcases List.eq_nil_or_concat (c :: t) with hnil | ⟨x, a, hx⟩
    · simp at hnil
    · rw [List.concat_eq_append] at hx
      rw [hx]
      exact rstrip_concat_of_neg (hlast x a (by rw [hs, hx]))

lemma rstrip_last_nonspace {p : Char → Bool} {q xinit : List Char} {c : Char}
    (h : rstrip p q = xinit ++ [c]) : p c = false := by
  have h' : q.reverse.dropWhile p = c :: xinit.reverse := by
    have := congrArg List.reverse h
    rw [rstrip, List.reverse_reverse] at this
    rw [this, List.reverse_append]
    simp
  exact dropWhile_head_false h'

lemma pyStrip_last_nonspace {s xinit : List Char} {c : Char}
    (h : pyStrip s = xinit ++ [c]) : pyIsSpace c = false :=
  rstrip_last_nonspace (p := pyIsSpace) (q := lstrip pyIsSpace s) h

lemma pyStrip_lstrip_fix {s : List Char} (h : pyStrip s = s) :
    lstrip pyIsSpace s = s := by
  cases hs : s with
  | nil => rfl
  | cons c t =>
    refine lstrip_cons_of_neg ?_
    exact pyStrip_head_nonspace (by rw [h, hs])

lemma pyStrip_rstrip_fix {s : List Char} (h : pyStrip s = s) :
    rstrip pyIsSpace s = s := by
  have hl := pyStrip_lstrip_fix h
  calc rstrip pyIsSpace s = rstrip pyIsSpace (lstrip pyIsSpace s) := by rw [hl]
    _ = pyStrip s := rfl
    _ = s := h

lemma dropWhile_append_all {p : Char → Bool} {a : List Char} (b : List Char)
    (h : ∀ c ∈ a, p c = true) :
    List.dropWhile p (a ++ b) = List.dropWhile p b := by
  induction a with
  | nil => simp
  | cons c a' ih =>
    rw [List.cons_append, List.dropWhile_cons_of_pos (by simp [h c (by simp)])]
    exact ih fun d hd => h d (by simp [hd])

lemma rstrip_append_all {p : Char → Bool} {v : List Char} (x : List Char)
    (h : ∀ c ∈ v, p c = true) :
    rstrip p (x ++ v) = rstrip p x := by
  rw [rstrip, rstrip, List.reverse_append]
  rw [dropWhile_append_all x.reverse fun c hc => h c (List.mem_reverse.mp hc)]

lemma lstrip_append_all {p : Char → Bool} {u : List Char} (x : List Char)
    (h : ∀ c ∈ u, p c = true) :
    lstrip p (u ++ x) = lstrip p x :=
  dropWhile_append_all x h

/-- Decompose a suffix of an append. -/
lemma suffix_append_cases {t x y : List Char} (h : t <:+ x ++ y) :
    t <:+ y ∨ ∃ x', x' <:+ x ∧ x' ≠ [] ∧ t = x' ++ y := by
  induction x with
  | nil => exact Or.inl (by simpa using h)
  | cons c x' ih =>
    rw [List.cons_append] at h
    rcases List.suffix_cons_iff.mp h with h1 | h1
    · exact Or.inr ⟨c :: x', List.suffix_refl _, by simp, by simpa using h1⟩
    · rcases ih h1 with h2 | ⟨x'', hx1, hx2, hx3⟩
      · exact Or.inl h2
      · exact Or.inr ⟨x'', hx1.trans (List.suffix_cons c x'), hx2, hx3⟩

lemma noOcc_append_cons {x : List Char} {c : Char} {y : List Char}
    (hx : NoOcc sepTok x) (hc : ¬ c = '-') (hy : NoOcc sepTok y) :
    NoOcc sepTok (x ++ c :: y) := by
  intro t ht
  rcases suffix_append_cases ht with h1 | ⟨x', hx1, hx2, rfl⟩
  · rcases List.suffix_cons_iff.mp h1 with rfl | h2
    · cases hb : sepTok.isPrefixOf (c :: y)
      · rfl
      · obtain ⟨t0, ht0⟩ := sepTok_isPrefixOf_iff.mp hb
        exact absurd (List.head_eq_of_cons_eq ht0) hc
    · exact hy t h2
  · cases hb : sepTok.isPrefixOf (x' ++ c :: y)
    · rfl
    · have hpre := sep_prefix_append_cons hc hb
      have hfalse := hx x' hx1
      rw [hpre] at hfalse
      exact absurd hfalse (by simp)

lemma noOcc_joinSep {ws : List (List Char)}
    (h : ∀ w ∈ ws, NoOcc sepTok w ∧ ∀ c ∈ w, pyIsSpace c = false) :
    NoOcc sepTok (joinSep [' '] ws) := by
  induction ws with
  | nil => exact noOcc_nil
  | cons w ws' ih =>
    cases ws' with
    | nil =>
      rw [joinSep]
      exact (h w (by simp)).1
    | cons w2 ws'' =>
      rw [joinSep]
      have hw := h w (by simp)
      have hrest := ih fun w' hw' => h w' (by simp [hw'])
      have hkey : NoOcc sepTok (w ++ ' ' :: joinSep [' '] (w2 :: ws'')) :=
        noOcc_append_cons hw.1 (by decide) hrest
      intro t ht
      refine hkey t ?_
      simpa [List.append_assoc] using ht

lemma noOcc_collapseWs {s : List Char} (h : NoOcc sepTok s) :
    NoOcc sepTok (collapseWs s) := by
  rw [collapseWs]
  apply noOcc_joinSep
  intro w hw
  exact ⟨noOcc_of_substring (pySplitWs_mem_substring hw) h, (pySplitWs_wf w hw).2⟩

lemma pyStrip_collapseWs (s : List Char) :
    pyStrip (collapseWs s) = collapseWs s := by
  refine stripBy_eq_self ?_ ?_
  · intro c t h
    exact joinSep_space_head (fun w hw => pySplitWs_wf w hw) h
  · intro x c h
    exact joinSep_space_last (fun w hw => pySplitWs_wf w hw) h

/-! ## `splitOnNl` structure (for the C8 round-trip) -/

lemma splitOnNl_no_nl {s : List Char} (h : '\n' ∉ s) : splitOnNl s = [s] := by
  induction s with
  | nil => rfl
  | cons c rest ih =>
    rw [splitOnNl, if_neg (fun hc => h (by simp [hc]))]
    rw [ih fun hm => h (by simp [hm])]

lemma splitOnNl_head_leading :
    ∀ {s l : List Char} {ls : List (List Char)},
      splitOnNl s = l :: ls → l <+: s := by
  intro s
  induction s with
  | nil =>
    intro l ls h
    rw [splitOnNl] at h
    cases h
    exact List.nil_prefix
  | cons c rest ih =>
    intro l ls h
    rw [splitOnNl] at h
    by_cases hc : c = '\n'
    · rw [if_pos hc] at h
      cases h
      exact List.nil_prefix
    · rw [if_neg hc] at h
      rcases hr : splitOnNl rest with - | ⟨l', ls'⟩
      · rw [hr] at h
        cases h
        exact ⟨rest, rfl⟩
      · rw [hr] at h
        cases h
        obtain ⟨w, hw⟩ := ih hr
        exact ⟨w, by rw [← hw]; rfl⟩

lemma splitOnNl_mem_substring :
    ∀ {s m : List Char}, m ∈ splitOnNl s → m <:+: s := by
  intro s
  induction s with
  | nil =>
    intro m hm
    rw [splitOnNl] at hm
    simp only [List.mem_singleton] at hm
    subst hm
    exact List.infix_rfl
  | cons c rest ih =>
    intro m hm
    rw [splitOnNl] at hm
    by_cases hc : c = '\n'
    · rw [if_pos hc] at hm
      rcases List.mem_cons.mp hm with rfl | hm'
      · exact List.nil_infix
      · exact (ih hm').trans ⟨[c], [], by simp⟩
    · rw [if_neg hc] at hm
      rcases hr : splitOnNl rest with - | ⟨l', ls'⟩
      · rw [hr] at hm
        simp only [List.mem_singleton] at hm
        subst hm
        exact ⟨[], rest, rfl⟩
      · rw [hr] at hm
        rcases List.mem_cons.mp hm with rfl | hm'
        · obtain ⟨w, hw⟩ := splitOnNl_head_leading hr
          exact ⟨[], w, by rw [← hw]; rfl⟩
        · have : m ∈ splitOnNl rest := by rw [hr]; simp [hm']
          exact (ih this).trans ⟨[c], [], by simp⟩

lemma cleanLines_mem_substring {s m : List Char} (h : m ∈ cleanLines s) :
    m <:+: s := by
  rw [cleanLines] at h
  have hmem := (List.mem_filter.mp h).1
  obtain ⟨m0, hm0, rfl⟩ := List.mem_map.mp hmem
  exact (stripBy_substring pyIsSpace m0).trans (splitOnNl_mem_substring hm0)

lemma findPhraseLine_mem :
    ∀ {ls : List (List Char)} {l : List Char} {rest : List (List Char)},
      findPhraseLine ls = some (l, rest) → l ∈ ls := by
  intro ls
  induction ls with
  | nil => intro l rest h; simp [findPhraseLine] at h
  | cons m ls' ih =>
    intro l rest h
    rw [findPhraseLine] at h
    by_cases hm : phrasePred m
    · rw [if_pos hm] at h
      cases h
      simp
    · rw [if_neg hm] at h
      simp [ih h]

/-! ## The parse output: no separator occurrence, canonical shapes -/

lemma parse_fst_noOcc (r : List Char) :
    NoOcc sepTok (parse_gigachat_response r).1 := by
  have post : ∀ x : List Char, NoOcc sepTok x →
      NoOcc sepTok (collapseWs (pyStrip (stripBrackets x))) := by
    intro x hx
    exact noOcc_collapseWs
      (noOcc_of_substring (stripBy_substring pyIsSpace (stripBrackets x))
        (noOcc_of_substring (stripBy_substring isBracketChar x) hx))
  rcases hab : splitFirst sepTok (pyStrip r) with - | ⟨a, b⟩
  · have hresp : NoOcc sepTok (pyStrip r) :=
      splitFirst_eq_none_iff_noOcc.mp hab
    rcases hfind : findPhraseLine (cleanLines (pyStrip r)) with - | ⟨l, rest⟩
    · rcases hlines : cleanLines (pyStrip r) with - | ⟨l0, rest0⟩
      · simp only [parse_gigachat_response, splitRaw, hab, hfind, hlines]
        exact post _ hresp
      · rw [hlines] at hfind
        simp only [parse_gigachat_response, splitRaw, hab, hlines, hfind]
        exact post _
          (noOcc_of_substring (cleanLines_mem_substring (by rw [hlines]; simp)) hresp)
    · simp only [parse_gigachat_response, splitRaw, hab, hfind]
      exact post _
        (noOcc_of_substring (cleanLines_mem_substring (findPhraseLine_mem hfind)) hresp)
  · simp only [parse_gigachat_response, splitRaw, hab]
    exact post _
      (noOcc_of_substring (stripBy_substring pyIsSpace a)
        (splitFirst_eq_some_noOcc_fst hab))

lemma splitRaw_snd_strip (resp : List Char) :
    pyStrip (splitRaw resp).2 = (splitRaw resp).2 := by
  rcases hab : splitFirst sepTok resp with - | ⟨a, b⟩
  · rcases hfind : findPhraseLine (cleanLines resp) with - | ⟨l, rest⟩
    · rcases hlines : cleanLines resp with - | ⟨l0, rest0⟩
      · simp only [splitRaw, hab, hfind, hlines]
        rfl
      · rw [hlines] at hfind
        simp only [splitRaw, hab, hlines, hfind, pyStrip_idem]
    · simp only [splitRaw, hab, hfind, pyStrip_idem]
  · simp only [splitRaw, hab, pyStrip_idem]

lemma parse_snd_strip (r : List Char) :
    pyStrip (parse_gigachat_response r).2 = (parse_gigachat_response r).2 := by
  show pyStrip (pyStrip (splitRaw (pyStrip r)).2) = pyStrip (splitRaw (pyStrip r)).2
  rw [pyStrip_idem]

lemma parse_fst_collapse (r : List Char) :
    (parse_gigachat_response r).1 =
      collapseWs (pyStrip (stripBrackets (splitRaw (pyStrip r)).1)) := rfl

/-- Inserting the separator after a block with no spurious occurrence:
`splitFirst` finds exactly the inserted separator. -/
lemma splitFirst_insert {u y : List Char}
    (H : ∀ t, t <:+ u → t ≠ [] →
      sepTok.isPrefixOf (t ++ sepTok ++ y) = false) :
    splitFirst sepTok (u ++ sepTok ++ y) = some (u, y) := by
  induction u with
  | nil =>
    show splitFirst sepTok ('-' :: '-' :: '-' :: y) = some ([], y)
    rw [splitFirst, if_pos (sepTok_isPrefixOf_iff.mpr ⟨y, rfl⟩)]
    rfl
  | cons c u' ih =>
    have hfull := H (c :: u') (List.suffix_refl _) (by simp)
    have hshape : (c :: u') ++ sepTok ++ y = c :: (u' ++ sepTok ++ y) := by simp
    rw [hshape]
    rw [hshape] at hfull
    rw [splitFirst, if_neg (by
      intro hpre
      rw [hfull] at hpre
      exact Bool.false_ne_true hpre)]
    rw [ih fun t ht hne => H t (ht.trans (List.suffix_cons c u')) hne]

/-- The hypothesis of `splitFirst_insert` holds for `p ++ "\n\n"` when `p`
itself has no separator occurrence: any candidate overlap crosses a
newline. -/
lemma noOcc_junction {p : List Char} (hp : NoOcc sepTok p) (x : List Char) :
    ∀ t, t <:+ p ++ ['\n', '\n'] → t ≠ [] →
      sepTok.isPrefixOf (t ++ sepTok ++ x) = false := by
  intro t ht hne
  rcases suffix_append_cases ht with h1 | ⟨x', hx1, hx2, rfl⟩
  · rcases List.suffix_cons_iff.mp h1 with rfl | h2
    · cases hb : sepTok.isPrefixOf (['\n', '\n'] ++ sepTok ++ x)
      · rfl
      · obtain ⟨t0, ht0⟩ := sepTok_isPrefixOf_iff.mp hb
        exact absurd (List.head_eq_of_cons_eq ht0) (by decide)
    · rcases List.suffix_cons_iff.mp h2 with rfl | h3
      · cases hb : sepTok.isPrefixOf (['\n'] ++ sepTok ++ x)
        · rfl
        · obtain ⟨t0, ht0⟩ := sepTok_isPrefixOf_iff.mp hb
          exact absurd (List.head_eq_of_cons_eq ht0) (by decide)
      · rw [List.suffix_nil.mp h3] at hne
        exact absurd rfl hne
  · cases hb : sepTok.isPrefixOf ((x' ++ ['\n', '\n']) ++ sepTok ++ x)
    · rfl
    · have hb' : sepTok.isPrefixOf
          (x' ++ '\n' :: ('\n' :: (sepTok ++ x))) = true := by
        simpa [List.append_assoc] using hb
      have hpre := sep_prefix_append_cons (by decide) hb'
      have hfalse := hp x' hx1
      rw [hpre] at hfalse
      exact absurd hfalse (by simp)

/-! ## Claim C8 -/

/-- **C8, counterexample.**  The claim says re-parsing the composed reply
reproduces any split-produced pair with a non-empty, Cyrillic-free phrase;
but the phrase `"[Hi"` (produced by split from `"[ [Hi\n---\nОбъяснение"`,
where bracket-stripping stops at the inner space) starts with `[`, and
re-parsing strips that bracket, yielding `"Hi"` instead. -/
theorem claim8_counterexample :
    parse_gigachat_response "[ [Hi\n---\nОбъяснение".toList =
      ("[Hi".toList, "Объяснение".toList) ∧
    "[Hi".toList ≠ ([] : List Char) ∧
    hasCyr "[Hi".toList = false ∧
    parse_gigachat_response
        (composeReply "[Hi".toList "Объяснение".toList) ≠
      ("[Hi".toList, "Объяснение".toList) :=
  ⟨by decide, by decide, by decide, by decide⟩

/-- **C8, amended.**  For every pair `(p, x)` produced by `split` where
the phrase `p` is non-empty, contains no Cyrillic characters, *and does
not begin or end with a bracket character* (`[` or `]`), re-running
`split` on the composed two-part reply (phrase, blank line, `---` line,
blank line, explanation; or the phrase alone when the explanation is
empty) returns exactly `(p, x)`. -/
theorem claim8_roundtrip (r p x : List Char)
    (hpe : parse_gigachat_response r = (p, x))
    (hne : p ≠ [])
    (_hcyr : hasCyr p = false)
    (hheadBr : isBracketChar (p.headD ' ') = false)
    (hlastBr : isBracketChar (p.getLastD ' ') = false) :
    parse_gigachat_response (composeReply p x) = (p, x) := by
  have hp1 : p = collapseWs (pyStrip (stripBrackets (splitRaw (pyStrip r)).1)) :=
    (congrArg Prod.fst hpe).symm.trans (parse_fst_collapse r)
  have hpstrip : pyStrip p = p := by rw [hp1]; exact pyStrip_collapseWs _
  have hpcoll : collapseWs p = p := by
    conv_lhs => rw [hp1]
    rw [collapseWs_collapseWs, ← hp1]
  have hpnl : '\n' ∉ p := by rw [hp1]; exact collapseWs_no_nl _
  have hpnoocc : NoOcc sepTok p := by
    have h0 := parse_fst_noOcc r
    rwa [congrArg Prod.fst hpe] at h0
  have hphead : ∀ c t, p = c :: t → pyIsSpace c = false := by
    intro c t hct
    rw [hp1, collapseWs] at hct
    exact joinSep_space_head (fun w hw => pySplitWs_wf w hw) hct
  have hxstrip : pyStrip x = x := by
    have h0 := parse_snd_strip r
    rwa [congrArg Prod.snd hpe] at h0
  have hbr : stripBrackets p = p := by
    refine stripBy_eq_self ?_ ?_
    · intro c t hct
      rw [hct] at hheadBr
      simpa using hheadBr
    · intro xinit c hct
      rw [hct, List.getLastD_eq_getLast?, List.getLast?_concat] at hlastBr
      simpa using hlastBr
  by_cases hx : x = []
  · subst hx
    have hcomp : composeReply p [] = p := by rw [composeReply]; simp
    rw [hcomp]
    have hsf : splitFirst sepTok p = none :=
      splitFirst_eq_none_iff_noOcc.mpr hpnoocc
    have hcl : cleanLines p = [p] := by
      rw [cleanLines, splitOnNl_no_nl hpnl]
      simp [hpstrip, hne]
    have hsr : splitRaw p = (p, []) := by
      by_cases hpred : phrasePred p
      · have hfind : findPhraseLine [p] = some (p, []) := by
          rw [findPhraseLine, if_pos hpred]
        simp only [splitRaw, hsf, hcl, hfind]
        rfl
      · have hfind : findPhraseLine [p] = none := by
          rw [findPhraseLine, if_neg hpred]
          rfl
        simp only [splitRaw, hsf, hcl, hfind]
        rfl
    show (collapseWs (pyStrip (stripBrackets (splitRaw (pyStrip p)).1)),
        pyStrip (splitRaw (pyStrip p)).2) = (p, [])
    rw [hpstrip, hsr]
    simp only
    rw [hbr, hpstrip, hpcoll]
    rfl
  · obtain ⟨c0, p', hp_cons⟩ := List.exists_cons_of_ne_nil hne
    obtain ⟨xi, xc, hx_concat⟩ : ∃ xi xc, x = xi ++ [xc] := by
      rcases List.eq_nil_or_concat x with h | ⟨xi, xc, h⟩
      · exact absurd h hx
      · exact ⟨xi, xc, by rw [h, List.concat_eq_append]⟩
    have hcomp : composeReply p x =
        (p ++ ['\n', '\n']) ++ sepTok ++ ('\n' :: '\n' :: x) := by
      rw [composeReply, if_pos (by simpa [List.isEmpty_iff] using hx)]
      simp [sepTok]
    have hstrip_comp :
        pyStrip ((p ++ ['\n', '\n']) ++ sepTok ++ ('\n' :: '\n' :: x)) =
          (p ++ ['\n', '\n']) ++ sepTok ++ ('\n' :: '\n' :: x) := by
      refine stripBy_eq_self ?_ ?_
      · intro c t hct
        rw [hp_cons] at hct
        have hc0 : c0 = c :=
          List.head_eq_of_cons_eq (by simpa [List.append_assoc] using hct)
        rw [← hc0]
        exact hphead c0 p' hp_cons
      · intro xinit c hct
        have h1 : ((p ++ ['\n', '\n']) ++ sepTok ++
            ('\n' :: '\n' :: x)).getLast? = some c := by
          rw [hct, List.getLast?_concat]
        have h2 : ((p ++ ['\n', '\n']) ++ sepTok ++
            ('\n' :: '\n' :: x)).getLast? = some xc := by
          rw [hx_concat]
          rw [show (p ++ ['\n', '\n']) ++ sepTok ++ ('\n' :: '\n' :: (xi ++ [xc]))
            = ((p ++ ['\n', '\n']) ++ sepTok ++ ('\n' :: '\n' :: xi)) ++ [xc] by
              simp]
          exact List.getLast?_concat _
        have hcxc : c = xc := by
          rw [h1] at h2
          exact Option.some.inj h2
        rw [hcxc]
        exact pyStrip_last_nonspace (s := x) (by rw [hxstrip]; exact hx_concat)
    have hsf : splitFirst sepTok
        ((p ++ ['\n', '\n']) ++ sepTok ++ ('\n' :: '\n' :: x)) =
        some (p ++ ['\n', '\n'], '\n' :: '\n' :: x) :=
      splitFirst_insert (noOcc_junction hpnoocc ('\n' :: '\n' :: x))
    have hpe1 : pyStrip (p ++ ['\n', '\n']) = p := by
      have h1 : lstrip pyIsSpace (p ++ ['\n', '\n']) = p ++ ['\n', '\n'] := by
        rw [hp_cons, List.cons_append]
        exact lstrip_cons_of_neg (hphead c0 p' hp_cons)
      have h2 : rstrip pyIsSpace (p ++ ['\n', '\n']) = p := by
        rw [rstrip_append_all p (by decide)]
        exact pyStrip_rstrip_fix hpstrip
      rw [pyStrip, stripBy, h1, h2]
    have hpe2 : pyStrip ('\n' :: '\n' :: x) = x := by
      have h1 : lstrip pyIsSpace ('\n' :: '\n' :: x) = x := by
        rw [lstrip, List.dropWhile_cons_of_pos (by decide),
          List.dropWhile_cons_of_pos (by decide)]
        exact pyStrip_lstrip_fix hxstrip
      rw [pyStrip, stripBy, h1]
      exact pyStrip_rstrip_fix hxstrip
    have hsr : splitRaw ((p ++ ['\n', '\n']) ++ sepTok ++ ('\n' :: '\n' :: x))
        = (p, x) := by
      simp only [splitRaw, hsf]
      rw [hpe1, hpe2]
    rw [hcomp]
    show (collapseWs (pyStrip (stripBrackets (splitRaw (pyStrip
        ((p ++ ['\n', '\n']) ++ sepTok ++ ('\n' :: '\n' :: x)))).1)),
      pyStrip (splitRaw (pyStrip
        ((p ++ ['\n', '\n']) ++ sepTok ++ ('\n' :: '\n' :: x)))).2) = (p, x)
    rw [hstrip_comp, hsr]
    simp only
    rw [hbr, hpstrip, hpcoll, hxstrip]

/-- Witness for C8 (amended) at the pair produced by `split` from
`"Hello world\n---\nОбъяснение"`. -/
theorem claim8_roundtrip_witness :
    parse_gigachat_response "Hello world\n---\nОбъяснение".toList =
      ("Hello world".toList, "Объяснение".toList) ∧
    "Hello world".toList ≠ ([] : List Char) ∧
    hasCyr "Hello world".toList = false ∧
    isBracketChar ("Hello world".toList.headD ' ') = false ∧
    isBracketChar ("Hello world".toList.getLastD ' ') = false ∧
    parse_gigachat_response
        (composeReply "Hello world".toList "Объяснение".toList) =
      ("Hello world".toList, "Объяснение".toList) :=
  ⟨by decide, by decide, by decide, by decide, by decide,
    claim8_roundtrip "Hello world\n---\nОбъяснение".toList
      "Hello world".toList "Объяснение".toList (by decide) (by decide)
      (by decide) (by decide) (by decide)⟩

end EasyEnglishBuddy
